import Mathlib

/-!
Verification of the Lumière inventory state-reconciliation engine.

Two variants of the inventory manager exist in the repository and are
embedded separately:

* namespace `V2` — the "Inventory Manager v2" (clarifications, reminders,
  partial-update item records): `updateItem`, `addPendingClarification`,
  `resolveClarification`, `getDueReminders`, `processInventoryMessage`.
* namespace `IM` — the simpler manager (`inventory-manager.js` and its two
  near-identical copies): `updateItemStatus`, `getPredictions`,
  `processInventoryMessage` with the all-failed apology reply.

JavaScript objects used as string-keyed maps are embedded as association
lists preserving key insertion order; `undefined`/`null` fields become
`Option`; timestamps are milliseconds as `Nat`; the floating-point day
arithmetic of `getPredictions` is embedded exactly over `ℤ`, with
JavaScript's `Math.round (a / b) = ⌊a/b + 1/2⌋ = ⌊(2a + b) / (2b)⌋` as an
integer floor division.  The status-report renderer (a presentation
concern) is passed as a parameter to the message processors.
-/

/-- `toLowerCase()`: lower-case every character.  Defined over the
character list (rather than `String.toLower`, whose `mapAux` loop does not
reduce in the kernel) so concrete instances evaluate. -/
def lowerStr (s : String) : String := ⟨s.data.map Char.toLower⟩

/-- Case-insensitive exact match of a phrase against the flattened catalog
list: `allItems.find(item => item.toLowerCase() === itemName.toLowerCase())`. -/
def findCanonical (allItems : List String) (itemName : String) : Option String :=
  allItems.find? (fun item => lowerStr item == lowerStr itemName)

/-- `getAllItemNames`: flatten the category → item lists of the catalog. -/
def allNamesOf (categories : List (String × List String)) : List String :=
  (categories.map Prod.snd).flatten

/-- Read a key of a string-keyed JS object (association list). -/
def getAssoc {α : Type} (l : List (String × α)) (k : String) : Option α :=
  (l.find? (fun p => p.1 == k)).map Prod.snd

/-- Assign a key of a string-keyed JS object: replace the first binding of
the key in place, or append a fresh binding at the end. -/
def setAssoc {α : Type} : List (String × α) → String → α → List (String × α)
  | [], k, v => [(k, v)]
  | (k0, v0) :: rest, k, v =>
    if k0 = k then (k, v) :: rest else (k0, v0) :: setAssoc rest k v

/-- The history-truncation step `if (h.length > 500) h = h.slice(-500)`,
shared verbatim by both manager variants. -/
def keepLast500 {α : Type} (h : List α) : List α :=
  if h.length > 500 then h.drop (h.length - 500) else h

theorem keepLast500_eq_drop {α : Type} (l : List α) :
    keepLast500 l = l.drop (l.length - 500) := by
  rw [keepLast500]
  split
  · rfl
  · next h =>
    rw [Nat.sub_eq_zero_of_le (Nat.le_of_not_lt h), List.drop_zero]

theorem length_keepLast500_append {α : Type} (l : List α) (e : α) :
    (keepLast500 (l ++ [e])).length ≤ 500 := by
  rw [keepLast500_eq_drop, List.length_drop, List.length_append]
  simp only [List.length_singleton]
  omega

theorem getAssoc_setAssoc_self {α : Type} (l : List (String × α)) (k : String) (v : α) :
    getAssoc (setAssoc l k v) k = some v := by
  induction l with
  | nil => simp [getAssoc, setAssoc]
  | cons hd tl ih =>
    by_cases h : hd.1 = k
    · simp [setAssoc, h, getAssoc]
    · simpa [setAssoc, h, getAssoc, List.find?] using ih

namespace V2

/-- ItemRecord of the v2 manager (`inventory.items[name]`). -/
structure ItemRecord where
  status : String
  qty : Option Int
  unit : Option String
  note : Option String
  lastUpdatedAt : Nat
  lastMentionedAt : Nat
  previousStatus : Option String
deriving DecidableEq, Repr

/-- History entry pushed by `updateItem`. -/
structure HistoryEntry where
  item : String
  action : String
  qty : Option Int
  unit : Option String
  timestamp : Nat
deriving DecidableEq, Repr

/-- The Inventory Document `{ categories, items, history }`. -/
structure Inventory where
  categories : List (String × List String)
  items : List (String × ItemRecord)
  history : List HistoryEntry
deriving DecidableEq, Repr

/-- The record written by `updateItem`: partial-update semantics for
`qty`/`unit`/`note` (`x !== null ? x : existing.x`), timestamps refreshed,
`previousStatus: existing.status || null`. -/
def updatedRecord (existing : Option ItemRecord) (status : String) (qty : Option Int)
    (unit note : Option String) (now : Nat) : ItemRecord :=
  { status := status
    qty := match qty with | some v => some v | none => existing.bind (fun r => r.qty)
    unit := match unit with | some v => some v | none => existing.bind (fun r => r.unit)
    note := match note with | some v => some v | none => existing.bind (fun r => r.note)
    lastUpdatedAt := now
    lastMentionedAt := now
    previousStatus :=
      existing.bind (fun r => if r.status = "" then none else some r.status) }

/-- `updateItem(itemName, status, qty, unit, note)` at time `now`: resolve
the name case-insensitively against the catalog; on a hit overwrite the
record with partial-update semantics, append a history entry and truncate
the history to the last 500 entries.  Returns `none` (the JS `null`) on no
match, otherwise the new inventory and the matched canonical name. -/
def updateItem (inv : Inventory) (itemName status : String) (qty : Option Int)
    (unit note : Option String) (now : Nat) : Option (Inventory × String) :=
  match findCanonical (allNamesOf inv.categories) itemName with
  | none => none
  | some matchedItem =>
    let newRec := updatedRecord (getAssoc inv.items matchedItem) status qty unit note now
    let entry : HistoryEntry :=
      { item := matchedItem, action := status, qty := qty, unit := unit, timestamp := now }
    some ({ inv with
              items := setAssoc inv.items matchedItem newRec
              history := keepLast500 (inv.history ++ [entry]) },
          matchedItem)

/-- Inversion of a successful `updateItem`. -/
theorem updateItem_eq_some {inv : Inventory} {itemName status : String} {qty : Option Int}
    {unit note : Option String} {now : Nat} {out : Inventory × String} :
    updateItem inv itemName status qty unit note now = some out ↔
    ∃ m, findCanonical (allNamesOf inv.categories) itemName = some m ∧
      out = ({ inv with
                items := setAssoc inv.items m
                  (updatedRecord (getAssoc inv.items m) status qty unit note now)
                history := keepLast500 (inv.history ++
                  [{ item := m, action := status, qty := qty, unit := unit,
                     timestamp := now }]) },
             m) := by
  cases hf : findCanonical (allNamesOf inv.categories) itemName with
  | none => simp [updateItem, hf]
  | some m => simp [updateItem, hf, eq_comm]

/-- One proposed update of the oracle intent (`{item, status, qty, unit, note}`). -/
structure UpdateReq where
  item : String
  status : String
  qty : Option Int
  unit : Option String
  note : Option String
deriving DecidableEq, Repr

/-- The update loop of `processInventoryMessage`: apply `updateItem` to each
proposed update in order, collecting the updated `(canonical name, update)`
pairs and the failed raw phrases. -/
def processUpdates : Inventory → List UpdateReq → Nat →
    Inventory × List (String × UpdateReq) × List String
  | inv, [], _ => (inv, [], [])
  | inv, u :: rest, now =>
    match updateItem inv u.item u.status u.qty u.unit u.note now with
    | some (inv2, m) =>
      let r := processUpdates inv2 rest now
      (r.1, (m, u) :: r.2.1, r.2.2)
    | none =>
      let r := processUpdates inv rest now
      (r.1, r.2.1, u.item :: r.2.2)

/-- A PendingClarification of the Pending-Actions Document. -/
structure Clarification where
  userId : String
  rawItem : String
  options : List String
  question : String
  createdAt : Nat
deriving DecidableEq, Repr

/-- A Reminder of the Pending-Actions Document. -/
structure Reminder where
  userId : String
  text : String
  when : String
  createdAt : Nat
  resolved : Bool
deriving DecidableEq, Repr

/-- The Pending-Actions Document `{ clarifications, reminders }`. -/
structure Pending where
  clarifications : List Clarification
  reminders : List Reminder
deriving DecidableEq, Repr

/-- `addPendingClarification(userId, rawItem, options, question)`: drop any
existing clarification of this user, then push the new one. -/
def addPendingClarification (p : Pending) (userId rawItem : String)
    (options : List String) (question : String) (now : Nat) : Pending :=
  { p with clarifications :=
      p.clarifications.filter (fun c => c.userId != userId)
        ++ [{ userId := userId, rawItem := rawItem, options := options,
              question := question, createdAt := now }] }

/-- `resolveClarification(userId)`: remove and return the user's
clarification if present; a no-op returning `none` otherwise. -/
def resolveClarification (p : Pending) (userId : String) : Pending × Option Clarification :=
  match p.clarifications.find? (fun c => c.userId == userId) with
  | some c =>
    ({ p with clarifications := p.clarifications.filter (fun x => x.userId != userId) },
     some c)
  | none => (p, none)

/-- `getPendingClarification(userId)`: read-only lookup. -/
def getPendingClarification (p : Pending) (userId : String) : Option Clarification :=
  p.clarifications.find? (fun c => c.userId == userId)

/-- `addReminder(userId, text, when)`: append an unresolved reminder. -/
def addReminder (p : Pending) (userId text whenKind : String) (now : Nat) : Pending :=
  { p with reminders :=
      p.reminders ++ [{ userId := userId, text := text, when := whenKind,
                        createdAt := now, resolved := false }] }

/-- Milliseconds per day, the divisor of `getDueReminders`. -/
def msPerDayN : Nat := 1000 * 60 * 60 * 24

/-- `getDueReminders()` at clock time `nowMs` (epoch ms) whose local hour is
`hour`: keep unresolved reminders that are "tonight" with `hour ≥ 20`, or
"tomorrow" with `Math.floor((now - createdAt)/day) ≥ 1`. -/
def getDueReminders (p : Pending) (nowMs hour : Nat) : List Reminder :=
  p.reminders.filter fun r =>
    if r.resolved then false
    else if r.when = "tonight" ∧ 20 ≤ hour then true
    else if r.when = "tomorrow" then decide (1 ≤ (nowMs - r.createdAt) / msPerDayN)
    else false

/-- One proposed clarification of the oracle intent (`{raw, options, question}`). -/
structure ClarificationReq where
  raw : String
  options : List String
  question : String
deriving DecidableEq, Repr

/-- The reminder proposal of the oracle intent (`{text, when}`). -/
structure ReminderReq where
  text : String
  when : String
deriving DecidableEq, Repr

/-- The structured intent the oracle returns for the v2 manager.  A missing
`reply` is the empty string (both are falsy in the source). -/
structure Parsed where
  intent : String
  updates : List UpdateReq
  clarifications : List ClarificationReq
  reminder : Option ReminderReq
  reply : String
deriving DecidableEq, Repr

/-- The two persisted documents threaded through one message. -/
structure ProcState where
  inventory : Inventory
  pending : Pending
deriving DecidableEq, Repr

/-- The clarification-answer step of `processInventoryMessage`: if this
requester has a pending clarification and the intent carries any updates,
resolve (delete) it before applying the updates. -/
def resolveIfAnswered (pending : Pending) (userId : String)
    (updates : List UpdateReq) : Pending :=
  if (getPendingClarification pending userId).isSome && !updates.isEmpty then
    (resolveClarification pending userId).1
  else pending

/-- The new-clarifications step: the first proposed clarification (if any)
creates/replaces this requester's pending clarification. -/
def addClarificationsStage (pending : Pending) (userId : String)
    (cls : List ClarificationReq) (now : Nat) : Pending :=
  match cls with
  | [] => pending
  | c :: _ => addPendingClarification pending userId c.raw c.options c.question now

/-- The reminder step: a reminder proposal with non-empty text is appended. -/
def addReminderStage (pending : Pending) (userId : String)
    (rem? : Option ReminderReq) (now : Nat) : Pending :=
  match rem? with
  | some rem => if rem.text ≠ "" then addReminder pending userId rem.text rem.when now
                else pending
  | none => pending

/-- The response-building tail of `processInventoryMessage`: start from the
oracle's reply, append the clarification question when the reply does not
already ask one, fall back to a confirmation line when updates happened and
the reply is empty, and return `null` for an empty response. -/
def buildResponse (p : Parsed) (updatedItems : List (String × UpdateReq)) :
    Option String :=
  let resp1 :=
    match p.clarifications with
    | [] => p.reply
    | c :: _ =>
      if p.reply.contains '?' then p.reply else p.reply ++ "\n\n" ++ c.question
  let resp2 :=
    if !updatedItems.isEmpty && resp1 = "" then
      let st0 := (updatedItems.head?.map (fun x => x.2.status)).getD ""
      let emoji := if st0 = "stocked" then "✅" else if st0 = "low" then "⚠️" else "❌"
      emoji ++ " Got it! Updated: " ++ String.intercalate ", " (updatedItems.map Prod.fst)
    else resp1
  if resp2 = "" then none else some resp2

/-- `processInventoryMessage(message, userId)` of the v2 manager, after the
oracle call: `parsed = none` is an unparseable/missing oracle output.
`render` is the status-report formatter (presentation, kept abstract).
Returns the new state and the reply (`none` is the no-reply sentinel). -/
def processInventoryMessage (render : Inventory → String) (st : ProcState)
    (parsed : Option Parsed) (userId : String) (now : Nat) : ProcState × Option String :=
  match parsed with
  | none => (st, none)
  | some p =>
    if p.intent = "ignore" then (st, none)
    else if p.intent = "status" then (st, some (render st.inventory))
    else
      let pend1 := resolveIfAnswered st.pending userId p.updates
      let r := processUpdates st.inventory p.updates now
      let pend3 :=
        addReminderStage (addClarificationsStage pend1 userId p.clarifications now)
          userId p.reminder now
      ({ inventory := r.1, pending := pend3 }, buildResponse p r.2.1)

end V2

namespace IM

/-- Item record of the simple manager: `{ status, updatedAt }`.  The status
written is whatever `statusMap[parsed.action]` gave, hence an `Option`
(`none` embeds the JS `undefined` of an action outside the map). -/
structure ItemRecord where
  status : Option String
  updatedAt : Nat
deriving DecidableEq, Repr

/-- History entry of the simple manager: `{ item, action, timestamp }`. -/
structure HistoryEntry where
  item : String
  action : Option String
  timestamp : Nat
deriving DecidableEq, Repr

/-- The Inventory Document of the simple manager. -/
structure Inventory where
  categories : List (String × List String)
  items : List (String × ItemRecord)
  history : List HistoryEntry
deriving DecidableEq, Repr

/-- `updateItemStatus(itemName, status)` at time `now`: case-insensitive
catalog match, whole-record overwrite, history append, truncation to the
last 500 entries.  `none` embeds the `false` return of a failed match. -/
def updateItemStatus (inv : Inventory) (itemName : String) (status : Option String)
    (now : Nat) : Option Inventory :=
  match findCanonical (allNamesOf inv.categories) itemName with
  | none => none
  | some matchedItem =>
    some { inv with
            items := setAssoc inv.items matchedItem { status := status, updatedAt := now }
            history := keepLast500 (inv.history ++
              [{ item := matchedItem, action := status, timestamp := now }]) }

/-- Inversion of a successful `updateItemStatus`. -/
theorem updateItemStatus_eq_some {inv : Inventory} {itemName : String}
    {status : Option String} {now : Nat} {inv' : Inventory} :
    updateItemStatus inv itemName status now = some inv' ↔
    ∃ m, findCanonical (allNamesOf inv.categories) itemName = some m ∧
      inv' = { inv with
                items := setAssoc inv.items m { status := status, updatedAt := now }
                history := keepLast500 (inv.history ++
                  [{ item := m, action := status, timestamp := now }]) } := by
  cases hf : findCanonical (allNamesOf inv.categories) itemName with
  | none => simp [updateItemStatus, hf]
  | some m => simp [updateItemStatus, hf, eq_comm]

/-- JavaScript `Math.round (a / b)` for integer `a` and positive integer
`b`, in exact arithmetic: `Math.round x = ⌊x + 1/2⌋` and
`⌊a/b + 1/2⌋ = ⌊(2a + b) / (2b)⌋`, a floor division. -/
def jsRoundDiv (a b : ℤ) : ℤ := Int.fdiv (2 * a + b) (2 * b)

/-- Milliseconds per day (the `1000 * 60 * 60 * 24` divisor). -/
def msPerDay : ℤ := 1000 * 60 * 60 * 24

/-- Append a timestamp to the group of `item`, creating the group at the end
on first sight (JS object key insertion order). -/
def pushEntry : List (String × List Nat) → String → Nat → List (String × List Nat)
  | [], item, ts => [(item, [ts])]
  | (k, v) :: rest, item, ts =>
    if k = item then (k, v ++ [ts]) :: rest else (k, v) :: pushEntry rest item ts

/-- One step of the history-grouping loop: only `stocked` entries count. -/
def stepStocked (acc : List (String × List Nat)) (e : HistoryEntry) :
    List (String × List Nat) :=
  if e.action = some "stocked" then pushEntry acc e.item e.timestamp else acc

/-- The `itemHistory` object of `getPredictions`: timestamps of `stocked`
entries grouped by item, groups in first-occurrence order. -/
def groupStocked (h : List HistoryEntry) : List (String × List Nat) :=
  h.foldl stepStocked []

/-- Ascending stable sort, the `dates.sort((a, b) => a - b)` step. -/
def sortNat (l : List Nat) : List Nat := List.insertionSort (· ≤ ·) l

/-- The consecutive deltas `dates[i] - dates[i-1]` in milliseconds. -/
def consecutiveGaps : List Nat → List ℤ
  | a :: b :: rest => ((b : ℤ) - (a : ℤ)) :: consecutiveGaps (b :: rest)
  | _ => []

/-- `avgDays = Math.round(totalDays / (dates.length - 1))` over the sorted
dates, where `totalDays` sums the consecutive deltas divided by a day:
exactly, `Σ (gapᵢ / day) / (n - 1) = (Σ gapᵢ) / (day * (n - 1))`. -/
def avgDaysOf (dates : List Nat) : ℤ :=
  jsRoundDiv (consecutiveGaps (sortNat dates)).sum
    (msPerDay * ((dates.length - 1 : ℕ) : ℤ))

/-- `daysSinceRestock = Math.round((now - lastRestock) / day)`. -/
def daysSinceOf (dates : List Nat) (nowMs : Nat) : ℤ :=
  jsRoundDiv ((nowMs : ℤ) - (((sortNat dates).getLast?.getD 0 : ℕ) : ℤ)) msPerDay

/-- One prediction row `{ item, avgDays, daysSinceRestock, urgent }`. -/
structure Prediction where
  item : String
  avgDays : ℤ
  daysSinceRestock : ℤ
  urgent : Bool
deriving DecidableEq, Repr

/-- The body of the per-item prediction loop: require at least two stocked
dates, include iff `daysSinceRestock >= avgDays - 1`, urgent iff
`daysSinceRestock >= avgDays`. -/
def predictOne (item : String) (dates : List Nat) (nowMs : Nat) : Option Prediction :=
  if 2 ≤ dates.length then
    let avgDays := avgDaysOf dates
    let daysSinceRestock := daysSinceOf dates nowMs
    if avgDays - 1 ≤ daysSinceRestock then
      some { item := item, avgDays := avgDays, daysSinceRestock := daysSinceRestock,
             urgent := decide (avgDays ≤ daysSinceRestock) }
    else none
  else none

/-- `getPredictions()` at clock time `nowMs`. -/
def getPredictions (inv : Inventory) (nowMs : Nat) : List Prediction :=
  (groupStocked inv.history).filterMap (fun g => predictOne g.1 g.2 nowMs)

/-- Specification-side description of a group: the timestamps of the
`stocked` history entries of one item, in history order. -/
def stockedTimes (h : List HistoryEntry) (k : String) : List Nat :=
  (h.filter (fun e => e.action == some "stocked" && e.item == k)).map
    (fun e => e.timestamp)

/-- The timestamp list bound to key `k` in a grouping accumulator. -/
def assocTimes (l : List (String × List Nat)) (k : String) : List Nat :=
  ((l.find? (fun p => p.1 == k)).map Prod.snd).getD []

/-- The keys of a grouping accumulator. -/
def keysOf (l : List (String × List Nat)) : List String := l.map Prod.fst

theorem assocTimes_pushEntry_self (l : List (String × List Nat)) (i : String) (ts : Nat) :
    assocTimes (pushEntry l i ts) i = assocTimes l i ++ [ts] := by
  induction l with
  | nil => simp [pushEntry, assocTimes]
  | cons hd tl ih =>
    obtain ⟨k, v⟩ := hd
    by_cases h : k = i
    · subst h
      simp [pushEntry, assocTimes, List.find?_cons]
    · have hb : (k == i) = false := beq_eq_false_iff_ne.2 h
      simp only [pushEntry, if_neg h, assocTimes, List.find?_cons, hb]
      exact ih

theorem assocTimes_pushEntry_ne (l : List (String × List Nat)) {i k : String} (ts : Nat)
    (hne : k ≠ i) : assocTimes (pushEntry l i ts) k = assocTimes l k := by
  induction l with
  | nil =>
    have hb : (i == k) = false := beq_eq_false_iff_ne.2 (Ne.symm hne)
    simp [pushEntry, assocTimes, List.find?_cons, hb]
  | cons hd tl ih =>
    obtain ⟨k0, v⟩ := hd
    by_cases h : k0 = i
    · subst h
      have hb : (k0 == k) = false := beq_eq_false_iff_ne.2 (Ne.symm hne)
      simp [pushEntry, assocTimes, List.find?_cons, hb]
    · simp only [pushEntry, if_neg h]
      by_cases h2 : k0 = k
      · subst h2
        simp [assocTimes, List.find?_cons]
      · have hb : (k0 == k) = false := beq_eq_false_iff_ne.2 h2
        simp only [assocTimes, List.find?_cons, hb]
        exact ih

theorem mem_keysOf_pushEntry (l : List (String × List Nat)) (i k : String) (ts : Nat) :
    k ∈ keysOf (pushEntry l i ts) ↔ k ∈ keysOf l ∨ k = i := by
  induction l with
  | nil => simp [pushEntry, keysOf]
  | cons hd tl ih =>
    obtain ⟨k0, v⟩ := hd
    by_cases h : k0 = i
    · subst h; simp [pushEntry, keysOf]; tauto
    · simp only [pushEntry, if_neg h]
      simp only [keysOf, List.map_cons, List.mem_cons] at *
      rw [or_assoc] at *
      exact or_congr_right ih

theorem keysOf_pushEntry_nodup (l : List (String × List Nat)) (i : String) (ts : Nat)
    (h : (keysOf l).Nodup) : (keysOf (pushEntry l i ts)).Nodup := by
  induction l with
  | nil => simp [pushEntry, keysOf]
  | cons hd tl ih =>
    obtain ⟨k0, v⟩ := hd
    simp only [keysOf, List.map_cons, List.nodup_cons] at h
    by_cases he : k0 = i
    · subst he
      simpa [pushEntry, keysOf, List.nodup_cons] using h
    · simp only [pushEntry, if_neg he, keysOf, List.map_cons, List.nodup_cons]
      refine ⟨fun hmem => ?_, ih h.2⟩
      rcases (mem_keysOf_pushEntry tl i k0 ts).1 hmem with h1 | h1
      · exact h.1 h1
      · exact he h1

theorem assocTimes_foldl (h : List HistoryEntry) :
    ∀ (acc : List (String × List Nat)) (k : String),
      assocTimes (h.foldl stepStocked acc) k = assocTimes acc k ++ stockedTimes h k := by
  induction h with
  | nil => intro acc k; simp [stockedTimes]
  | cons e rest ih =>
    intro acc k
    simp only [List.foldl_cons]
    rw [ih]
    by_cases hs : e.action = some "stocked"
    · by_cases hk : e.item = k
      · subst hk
        rw [stepStocked, if_pos hs, assocTimes_pushEntry_self]
        simp [stockedTimes, List.filter_cons, hs]
      · rw [stepStocked, if_pos hs, assocTimes_pushEntry_ne _ _ (fun hkk => hk hkk.symm)]
        simp [stockedTimes, List.filter_cons, hs, hk]
    · rw [stepStocked, if_neg hs]
      simp [stockedTimes, List.filter_cons, hs]

theorem keysOf_foldl_nodup (h : List HistoryEntry) :
    ∀ acc : List (String × List Nat),
      (keysOf acc).Nodup → (keysOf (h.foldl stepStocked acc)).Nodup := by
  induction h with
  | nil => intro acc hn; simpa using hn
  | cons e rest ih =>
    intro acc hn
    simp only [List.foldl_cons]
    refine ih _ ?_
    by_cases hs : e.action = some "stocked"
    · rw [stepStocked, if_pos hs]
      exact keysOf_pushEntry_nodup acc e.item e.timestamp hn
    · rwa [stepStocked, if_neg hs]

theorem assocTimes_of_mem {l : List (String × List Nat)} {k : String} {v : List Nat}
    (hn : (keysOf l).Nodup) (hm : (k, v) ∈ l) : assocTimes l k = v := by
  induction l with
  | nil => cases hm
  | cons hd tl ih =>
    obtain ⟨k0, v0⟩ := hd
    simp only [keysOf, List.map_cons, List.nodup_cons] at hn
    rcases List.mem_cons.1 hm with h1 | h1
    · cases h1
      simp [assocTimes, List.find?_cons]
    · have hk : k0 ≠ k := by
        intro he; subst he
        exact hn.1 (List.mem_map_of_mem Prod.fst h1)
      have hb : (k0 == k) = false := beq_eq_false_iff_ne.2 hk
      simp only [assocTimes, List.find?_cons, hb]
      exact ih hn.2 h1

/-- Every group of `groupStocked` is exactly the item's `stocked`
timestamps in history order. -/
theorem mem_groupStocked {h : List HistoryEntry} {k : String} {v : List Nat}
    (hm : (k, v) ∈ groupStocked h) : v = stockedTimes h k := by
  have hn : (keysOf (groupStocked h)).Nodup := keysOf_foldl_nodup h [] (by simp [keysOf])
  have heq := assocTimes_of_mem hn hm
  simp only [groupStocked] at heq
  rw [assocTimes_foldl h [] k] at heq
  simpa [assocTimes] using heq.symm

/-- The structured record of the simple manager's oracle
(`{"action": ..., "items": [...], "message": ...}`). -/
structure Parsed where
  action : String
  items : List String
  message : String
deriving DecidableEq, Repr

/-- `statusMap[action]`: partial lookup from oracle action to item status. -/
def statusMap (action : String) : Option String :=
  if action = "restock" then some "stocked"
  else if action = "low" then some "low"
  else if action = "out" then some "out"
  else none

/-- The update loop of the simple manager: collect the items whose
`updateItemStatus` succeeded, threading the inventory. -/
def processItems : Inventory → List String → Option String → Nat → Inventory × List String
  | inv, [], _, _ => (inv, [])
  | inv, it :: rest, status, now =>
    match updateItemStatus inv it status now with
    | some inv2 =>
      let r := processItems inv2 rest status now
      (r.1, it :: r.2)
    | none =>
      let r := processItems inv rest status now
      r

/-- `processInventoryMessage` of `inventory-manager.js`: no-reply on
unparseable/ignore/unknown, rendered status report on `status`, otherwise
run the update loop and reply with the all-failed apology or the
confirmation line. -/
def processInventoryMessage (render : Inventory → String) (inv : Inventory)
    (parsed : Option Parsed) (now : Nat) : Inventory × Option String :=
  match parsed with
  | none => (inv, none)
  | some p =>
    if p.action = "ignore" then (inv, none)
    else if p.action = "unknown" then (inv, none)
    else if p.action = "status" then (inv, some (render inv))
    else
      let status := statusMap p.action
      let r := processItems inv p.items status now
      if r.2.isEmpty then
        (r.1, some "❌ Couldn\x27t find those items in inventory. Check spelling?")
      else
        let emoji := if status = some "stocked" then "✅"
                     else if status = some "low" then "⚠️" else "❌"
        let statusText := if status = some "stocked" then "RESTOCKED"
                          else if status = some "low" then "marked as LOW"
                          else "marked as OUT"
        (r.1, some (emoji ++ " **" ++ statusText ++ ":** " ++ String.intercalate ", " r.2))

end IM

/-! ### Shared helper lemmas -/

theorem V2.updateItem_history_le {inv : V2.Inventory} {itemName status : String}
    {qty : Option Int} {unit note : Option String} {now : Nat} {out : V2.Inventory × String}
    (h : V2.updateItem inv itemName status qty unit note now = some out) :
    out.1.history.length ≤ 500 := by
  obtain ⟨m, hm, rfl⟩ := V2.updateItem_eq_some.1 h
  exact length_keepLast500_append _ _

theorem V2.processUpdates_history_le (us : List V2.UpdateReq) (now : Nat) :
    ∀ inv : V2.Inventory, inv.history.length ≤ 500 →
      ((V2.processUpdates inv us now).1).history.length ≤ 500 := by
  induction us with
  | nil => intro inv h; simpa [V2.processUpdates] using h
  | cons u rest ih =>
    intro inv h
    cases hu : V2.updateItem inv u.item u.status u.qty u.unit u.note now with
    | none => simpa [V2.processUpdates, hu] using ih inv h
    | some out =>
      obtain ⟨inv2, m⟩ := out
      simpa [V2.processUpdates, hu] using ih inv2 (V2.updateItem_history_le hu)

theorem V2.updateItem_eq_none {inv : V2.Inventory} {itemName status : String}
    {qty : Option Int} {unit note : Option String} {now : Nat}
    (hall : ∀ cand ∈ allNamesOf inv.categories, lowerStr cand ≠ lowerStr itemName) :
    V2.updateItem inv itemName status qty unit note now = none := by
  have hf : findCanonical (allNamesOf inv.categories) itemName = none := by
    rw [findCanonical, List.find?_eq_none]
    intro a ha
    simpa using hall a ha
  simp [V2.updateItem, hf]

theorem V2.processUpdates_all_failed (us : List V2.UpdateReq) (now : Nat)
    (inv : V2.Inventory)
    (hall : ∀ u ∈ us, ∀ cand ∈ allNamesOf inv.categories, lowerStr cand ≠ lowerStr u.item) :
    V2.processUpdates inv us now = (inv, [], us.map (fun u => u.item)) := by
  induction us with
  | nil => simp [V2.processUpdates]
  | cons u rest ih =>
    have hu : V2.updateItem inv u.item u.status u.qty u.unit u.note now = none :=
      V2.updateItem_eq_none (hall u (by simp))
    have hrest := ih (fun v hv => hall v (List.mem_cons_of_mem u hv))
    simp [V2.processUpdates, hu, hrest]

theorem length_filter_filter_le {α : Type} (l : List α) (p q : α → Bool) :
    ((l.filter p).filter q).length ≤ (l.filter q).length := by
  induction l with
  | nil => simp
  | cons a tl ih =>
    by_cases hp : p a = true
    · by_cases hq : q a = true
      · simpa [List.filter_cons, hp, hq] using ih
      · simpa [List.filter_cons, hp, hq] using ih
    · by_cases hq : q a = true
      · simp only [List.filter_cons, Bool.eq_false_iff.2 hp, hq, cond_false, cond_true,
          List.length_cons]
        exact ih.trans (Nat.le_succ _)
      · simpa [List.filter_cons, hp, hq] using ih

/-- At most one pending clarification per requester. -/
def V2.atMostOnePerUser (p : V2.Pending) : Prop :=
  ∀ uid : String, (p.clarifications.filter (fun c => c.userId == uid)).length ≤ 1

theorem filter_eq_of_filter_ne {l : List V2.Clarification} {uid : String} :
    (l.filter (fun c => c.userId != uid)).filter (fun c => c.userId == uid) = [] := by
  induction l with
  | nil => simp
  | cons a tl ih =>
    by_cases h : a.userId = uid
    · have hb : (a.userId != uid) = false := by simp [h]
      simp [List.filter_cons, hb, ih]
    · have hb1 : (a.userId != uid) = true := by simp [h]
      have hb2 : (a.userId == uid) = false := beq_eq_false_iff_ne.2 h
      simp [List.filter_cons, hb1, hb2, ih]

/-- After `addPendingClarification`, the requester's clarifications are
exactly the freshly pushed one. -/
theorem V2.addPendingClarification_filter (p : V2.Pending) (uid raw : String)
    (opts : List String) (q : String) (now : Nat) :
    (V2.addPendingClarification p uid raw opts q now).clarifications.filter
        (fun c => c.userId == uid)
      = [{ userId := uid, rawItem := raw, options := opts, question := q,
           createdAt := now }] := by
  simp only [V2.addPendingClarification, List.filter_append]
  rw [filter_eq_of_filter_ne]
  simp

/-- Resolution leaves the requester with no clarification, whether or not
one existed. -/
theorem V2.resolveClarification_filter (p : V2.Pending) (uid : String) :
    ((V2.resolveClarification p uid).1).clarifications.filter
      (fun c => c.userId == uid) = [] := by
  rw [V2.resolveClarification]
  cases hf : p.clarifications.find? (fun c => c.userId == uid) with
  | some c =>
    simp [@filter_eq_of_filter_ne p.clarifications uid]
  | none =>
    simp only
    rw [List.filter_eq_nil_iff]
    intro c hc
    have := List.find?_eq_none.1 hf c hc
    simpa using this

theorem V2.addReminder_clarifications (p : V2.Pending) (uid text w : String) (now : Nat) :
    (V2.addReminder p uid text w now).clarifications = p.clarifications := rfl

theorem V2.addReminderStage_clarifications (pending : V2.Pending) (uid : String)
    (rem? : Option V2.ReminderReq) (now : Nat) :
    (V2.addReminderStage pending uid rem? now).clarifications = pending.clarifications := by
  cases rem? with
  | none => rfl
  | some rem =>
    by_cases h : rem.text ≠ "" <;>
      simp [V2.addReminderStage, h, V2.addReminder_clarifications]

/-! ### Claim theorems -/

/-- C1.  For every sequence of updates to the same canonical item via
`updateItem` (the preceding updates folded by `processUpdates`), the record
after the last successful update has exactly that update's target status
(last-write-wins), its `qty`/`unit`/`note` are overwritten only when the
last update supplies a non-`null` value and otherwise keep the prior
record's values, and `previousStatus` is the status the record had before
the update. -/
theorem spec_c1_merge_semantics_last_write_wins
    (inv : V2.Inventory) (us : List V2.UpdateReq) (u : V2.UpdateReq) (now : Nat)
    (inv' : V2.Inventory) (m : String)
    (h : V2.updateItem (V2.processUpdates inv us now).1 u.item u.status u.qty u.unit u.note
          now = some (inv', m)) :
    ∃ r : V2.ItemRecord, getAssoc inv'.items m = some r ∧
      r.status = u.status ∧
      (∀ v, u.qty = some v → r.qty = some v) ∧
      (u.qty = none →
        r.qty = (getAssoc ((V2.processUpdates inv us now).1).items m).bind
          (fun pr => pr.qty)) ∧
      (∀ s, u.unit = some s → r.unit = some s) ∧
      (u.unit = none →
        r.unit = (getAssoc ((V2.processUpdates inv us now).1).items m).bind
          (fun pr => pr.unit)) ∧
      (∀ s, u.note = some s → r.note = some s) ∧
      (u.note = none →
        r.note = (getAssoc ((V2.processUpdates inv us now).1).items m).bind
          (fun pr => pr.note)) ∧
      (∀ pr, getAssoc ((V2.processUpdates inv us now).1).items m = some pr →
        pr.status ≠ "" → r.previousStatus = some pr.status) := by
  obtain ⟨m0, hm0, hout⟩ := V2.updateItem_eq_some.1 h
  obtain ⟨h1, h2⟩ := Prod.mk.injEq .. ▸ hout
  subst h2
  refine ⟨V2.updatedRecord (getAssoc ((V2.processUpdates inv us now).1).items m)
    u.status u.qty u.unit u.note now, ?_, rfl, ?_, ?_, ?_, ?_, ?_, ?_, ?_⟩
  · rw [h1]; exact getAssoc_setAssoc_self _ _ _
  · intro v hv; simp [V2.updatedRecord, hv]
  · intro hv; simp [V2.updatedRecord, hv]
  · intro s hs; simp [V2.updatedRecord, hs]
  · intro hs; simp [V2.updatedRecord, hs]
  · intro s hs; simp [V2.updatedRecord, hs]
  · intro hs; simp [V2.updatedRecord, hs]
  · intro pr hpr hne
    simp [V2.updatedRecord, hpr, hne]

def c1Inv : V2.Inventory :=
  { categories := [("Drinks", ["Milk"])], items := [], history := [] }

def c1u1 : V2.UpdateReq :=
  { item := "milk", status := "low", qty := some 2, unit := some "bags", note := none }

def c1u2 : V2.UpdateReq :=
  { item := "Milk", status := "stocked", qty := none, unit := none, note := some "fresh" }

theorem spec_c1_merge_semantics_last_write_wins_witness :
    ∃ (inv' : V2.Inventory) (m : String) (r : V2.ItemRecord),
      V2.updateItem (V2.processUpdates c1Inv [c1u1] 5).1 c1u2.item c1u2.status c1u2.qty
        c1u2.unit c1u2.note 5 = some (inv', m) ∧
      getAssoc inv'.items m = some r ∧ r.status = "stocked" ∧ r.qty = some 2 ∧
      r.unit = some "bags" ∧ r.note = some "fresh" ∧ r.previousStatus = some "low" := by
  obtain ⟨r, hr, hst, _, hqn, _, hun, hns, _, hp⟩ :=
    spec_c1_merge_semantics_last_write_wins c1Inv [c1u1] c1u2 5 _ _ rfl
  refine ⟨_, _, r, rfl, hr, hst, ?_, ?_, ?_, ?_⟩
  · exact (hqn rfl).trans (by decide)
  · exact (hun rfl).trans (by decide)
  · exact hns "fresh" rfl
  · exact hp { status := "low", qty := some 2, unit := some "bags", note := none,
               lastUpdatedAt := 5, lastMentionedAt := 5, previousStatus := none }
      (by decide) (by decide)

/-- C2.  Every successful item update leaves the history with at most 500
entries; the new history is the appended history with exactly its oldest
entries dropped (`drop` of a prefix, preserving the order of the rest).
This holds for `updateItem` of the v2 manager and `updateItemStatus` of the
simple manager, and is preserved by every `processInventoryMessage` call. -/
theorem spec_c2_history_bound :
    (∀ (inv : V2.Inventory) (name st : String) (q : Option Int) (u n : Option String)
        (now : Nat) (inv' : V2.Inventory) (m : String),
      V2.updateItem inv name st q u n now = some (inv', m) →
        inv'.history.length ≤ 500 ∧
        inv'.history =
          (inv.history ++ [({ item := m, action := st, qty := q, unit := u,
                              timestamp := now } : V2.HistoryEntry)]).drop
            (inv.history.length + 1 - 500))
    ∧ (∀ (inv : IM.Inventory) (name : String) (st : Option String) (now : Nat)
        (inv' : IM.Inventory),
      IM.updateItemStatus inv name st now = some inv' →
        inv'.history.length ≤ 500 ∧
        ∃ m, findCanonical (allNamesOf inv.categories) name = some m ∧
          inv'.history =
            (inv.history ++ [({ item := m, action := st,
                                timestamp := now } : IM.HistoryEntry)]).drop
              (inv.history.length + 1 - 500))
    ∧ (∀ (render : V2.Inventory → String) (st : V2.ProcState) (parsed : Option V2.Parsed)
        (uid : String) (now : Nat),
      st.inventory.history.length ≤ 500 →
        (((V2.processInventoryMessage render st parsed uid now).1).inventory).history.length
          ≤ 500) := by
  refine ⟨?_, ?_, ?_⟩
  · intro inv name st q u n now inv' m h
    obtain ⟨m0, hm0, hout⟩ := V2.updateItem_eq_some.1 h
    obtain ⟨h1, h2⟩ := Prod.mk.injEq .. ▸ hout
    subst h2
    constructor
    · rw [h1]; exact length_keepLast500_append _ _
    · rw [h1]
      show keepLast500 _ = _
      rw [keepLast500_eq_drop, List.length_append, List.length_singleton]
  · intro inv name st now inv' h
    obtain ⟨m, hm, rfl⟩ := IM.updateItemStatus_eq_some.1 h
    refine ⟨length_keepLast500_append _ _, m, hm, ?_⟩
    show keepLast500 _ = _
    rw [keepLast500_eq_drop, List.length_append, List.length_singleton]
  · intro render st parsed uid now hle
    cases parsed with
    | none => simpa [V2.processInventoryMessage] using hle
    | some p =>
      by_cases hig : p.intent = "ignore"
      · simpa [V2.processInventoryMessage, hig] using hle
      · by_cases hst : p.intent = "status"
        · simpa [V2.processInventoryMessage, hig, hst] using hle
        · simpa [V2.processInventoryMessage, hig, hst] using
            V2.processUpdates_history_le p.updates now st.inventory hle

def c2Inv : V2.Inventory :=
  { categories := [("Drinks", ["Milk"])], items := [], history := [] }

def c2Out : V2.Inventory :=
  { categories := [("Drinks", ["Milk"])]
    items := [("Milk", { status := "low", qty := none, unit := none, note := none,
                         lastUpdatedAt := 3, lastMentionedAt := 3, previousStatus := none })]
    history := [{ item := "Milk", action := "low", qty := none, unit := none,
                  timestamp := 3 }] }

theorem spec_c2_history_bound_witness :
    V2.updateItem c2Inv "milk" "low" none none none 3 = some (c2Out, "Milk") ∧
    c2Out.history.length ≤ 500 ∧
    c2Out.history =
      (c2Inv.history ++ [({ item := "Milk", action := "low", qty := none, unit := none,
                            timestamp := 3 } : V2.HistoryEntry)]).drop
        (c2Inv.history.length + 1 - 500) := by
  obtain ⟨h1, h2⟩ :=
    spec_c2_history_bound.1 c2Inv "milk" "low" none none none 3 c2Out "Milk" (by decide)
  exact ⟨by decide, h1, h2⟩

/-- C7.  An unparseable or missing oracle output yields the no-reply
sentinel and leaves both documents untouched, and an `ignore`-classified
intent does the same: no item record changes, no history entry, no
clarification or reminder. -/
theorem spec_c7_unparseable_ignore_no_reply :
    (∀ (render : V2.Inventory → String) (st : V2.ProcState) (uid : String) (now : Nat),
      V2.processInventoryMessage render st none uid now = (st, none))
    ∧ (∀ (render : V2.Inventory → String) (st : V2.ProcState) (p : V2.Parsed)
        (uid : String) (now : Nat), p.intent = "ignore" →
      V2.processInventoryMessage render st (some p) uid now = (st, none)) := by
  refine ⟨fun _ _ _ _ => rfl, ?_⟩
  intro render st p uid now hig
  simp [V2.processInventoryMessage, hig]

def c7St : V2.ProcState :=
  { inventory := { categories := [("Drinks", ["Milk"])], items := [], history := [] }
    pending := { clarifications := [], reminders := [] } }

def c7Parsed : V2.Parsed :=
  { intent := "ignore", updates := [], clarifications := [], reminder := none,
    reply := "nah" }

theorem spec_c7_unparseable_ignore_no_reply_witness :
    V2.processInventoryMessage (fun _ => "") c7St (some c7Parsed) "user1" 0 = (c7St, none) :=
  spec_c7_unparseable_ignore_no_reply.2 (fun _ => "") c7St c7Parsed "user1" 0 rfl

/-- C10.  An item phrase with no case-insensitive exact match in the
flattened catalog makes `updateItem` return the no-match result `none`, and
the update loop leaves the Inventory Document entirely unchanged while
recording exactly the failed phrases. -/
theorem spec_c10_no_match_no_mutation
    (inv : V2.Inventory) (us : List V2.UpdateReq) (now : Nat)
    (hall : ∀ u ∈ us, ∀ cand ∈ allNamesOf inv.categories,
      lowerStr cand ≠ lowerStr u.item) :
    (∀ u ∈ us, V2.updateItem inv u.item u.status u.qty u.unit u.note now = none)
    ∧ V2.processUpdates inv us now = (inv, [], us.map (fun u => u.item)) :=
  ⟨fun u hu => V2.updateItem_eq_none (hall u hu),
   V2.processUpdates_all_failed us now inv hall⟩

/-- C4.  The at-most-one-clarification-per-requester invariant is preserved
by every mutator of the Pending-Actions Document (`addPendingClarification`,
`resolveClarification`, `addReminder`), and adding a clarification for a
requester who already has one replaces it: afterwards that requester's
clarifications are exactly the new entry. -/
theorem spec_c4_clarification_at_most_one
    (p : V2.Pending) (uid raw : String) (opts : List String) (q text w : String)
    (now : Nat) :
    (V2.atMostOnePerUser p →
      V2.atMostOnePerUser (V2.addPendingClarification p uid raw opts q now))
    ∧ (V2.atMostOnePerUser p → V2.atMostOnePerUser (V2.resolveClarification p uid).1)
    ∧ (V2.atMostOnePerUser p → V2.atMostOnePerUser (V2.addReminder p uid text w now))
    ∧ (V2.addPendingClarification p uid raw opts q now).clarifications.filter
        (fun c => c.userId == uid)
      = [{ userId := uid, rawItem := raw, options := opts, question := q,
           createdAt := now }] := by
  refine ⟨?_, ?_, ?_, V2.addPendingClarification_filter p uid raw opts q now⟩
  · intro h u
    by_cases hu : u = uid
    · subst hu
      rw [V2.addPendingClarification_filter]
      simp
    · simp only [V2.addPendingClarification, List.filter_append]
      have hb : ((⟨uid, raw, opts, q, now⟩ : V2.Clarification).userId == u) = false :=
        beq_eq_false_iff_ne.2 (Ne.symm hu)
      simp only [List.filter_cons, hb, Bool.false_eq_true, if_false, List.filter_nil,
        List.append_nil]
      exact (length_filter_filter_le _ _ _).trans (h u)
  · intro h u
    rw [V2.resolveClarification]
    cases hf : p.clarifications.find? (fun c => c.userId == uid) with
    | some c =>
      simp only
      exact (length_filter_filter_le _ _ _).trans (h u)
    | none => exact h u
  · intro h u
    simpa [V2.addReminder_clarifications] using h u

def c4Pending : V2.Pending :=
  { clarifications :=
      [⟨"alice", "cups", ["Large to go cups", "Regular to go cups"], "Which cups?", 1⟩]
    reminders := [] }

theorem spec_c4_clarification_at_most_one_witness :
    V2.atMostOnePerUser
      (V2.addPendingClarification c4Pending "alice" "bags" ["Paper bags 10"] "Which bags?" 9)
    ∧ (V2.addPendingClarification c4Pending "alice" "bags" ["Paper bags 10"] "Which bags?"
        9).clarifications.filter (fun c => c.userId == "alice")
      = [{ userId := "alice", rawItem := "bags", options := ["Paper bags 10"],
           question := "Which bags?", createdAt := 9 }] := by
  have hmono : V2.atMostOnePerUser c4Pending := fun uid =>
    (List.length_filter_le _ _).trans (by decide)
  obtain ⟨h1, _, _, h4⟩ :=
    spec_c4_clarification_at_most_one c4Pending "alice" "bags" ["Paper bags 10"]
      "Which bags?" "" "" 9
  exact ⟨h1 hmono, h4⟩

/-- C5.  If a pending clarification exists for a requester and the parsed
intent carries at least one resolvable update, processing deletes the
requester's pending clarification unconditionally (no check that the update
matches the original options): afterwards the requester's clarifications
are empty unless the intent itself proposed a fresh clarification, which
then replaces the old one; the updates are applied regardless. -/
theorem spec_c5_clarification_cleared_on_update
    (render : V2.Inventory → String) (st : V2.ProcState) (p : V2.Parsed)
    (uid : String) (now : Nat) (c : V2.Clarification)
    (hig : p.intent ≠ "ignore") (hst : p.intent ≠ "status")
    (hc : V2.getPendingClarification st.pending uid = some c)
    (hres : ∃ u ∈ p.updates,
      (findCanonical (allNamesOf st.inventory.categories) (V2.UpdateReq.item u)).isSome) :
    ((V2.processInventoryMessage render st (some p) uid now).1).pending.clarifications.filter
        (fun cl => cl.userId == uid)
      = (match p.clarifications with
         | [] => []
         | c0 :: _ => [{ userId := uid, rawItem := c0.raw, options := c0.options,
                         question := c0.question, createdAt := now }])
    ∧ ((V2.processInventoryMessage render st (some p) uid now).1).inventory
      = (V2.processUpdates st.inventory p.updates now).1 := by
  obtain ⟨u, hu, _⟩ := hres
  have hne : p.updates ≠ [] := fun hnil => by simp [hnil] at hu
  have hempty : p.updates.isEmpty = false := by
    cases hup : p.updates with
    | nil => exact absurd hup hne
    | cons a tl => simp
  have hcond : ((V2.getPendingClarification st.pending uid).isSome
      && !p.updates.isEmpty) = true := by
    rw [hc, hempty]
    rfl
  simp only [V2.processInventoryMessage, if_neg hig, if_neg hst]
  refine ⟨?_, trivial⟩
  rw [V2.addReminderStage_clarifications]
  have hp1 : V2.resolveIfAnswered st.pending uid p.updates
      = (V2.resolveClarification st.pending uid).1 := by
    rw [V2.resolveIfAnswered, hcond]
    rfl
  cases hcl : p.clarifications with
  | nil =>
    simp only [V2.addClarificationsStage, hp1]
    exact V2.resolveClarification_filter st.pending uid
  | cons c0 rest =>
    simp only [V2.addClarificationsStage]
    exact V2.addPendingClarification_filter _ uid c0.raw c0.options c0.question now

def c5Clar : V2.Clarification :=
  ⟨"alice", "cups",
   ["Large to go cups", "Regular to go cups", "Espresso to go cups", "Cold to go cups"],
   "Which cups?", 2⟩

def c5St : V2.ProcState :=
  { inventory := { categories := [("Containers", ["Large to go cups"])], items := [],
                   history := [] }
    pending := { clarifications := [c5Clar], reminders := [] } }

def c5Upd : V2.UpdateReq := ⟨"Large to go cups", "low", none, none, none⟩

def c5Parsed : V2.Parsed :=
  { intent := "update"
    updates := [c5Upd]
    clarifications := []
    reminder := none
    reply := "Got it" }

theorem spec_c5_clarification_cleared_on_update_witness :
    ((V2.processInventoryMessage (fun _ => "") c5St (some c5Parsed) "alice"
        7).1).pending.clarifications.filter (fun cl => cl.userId == "alice") = []
    ∧ ((V2.processInventoryMessage (fun _ => "") c5St (some c5Parsed) "alice"
        7).1).inventory = (V2.processUpdates c5St.inventory c5Parsed.updates 7).1 := by
  have h := spec_c5_clarification_cleared_on_update (fun _ => "") c5St c5Parsed "alice" 7
    c5Clar (by decide) (by decide) (by decide) ⟨c5Upd, by decide, by decide⟩
  exact h

/-- C9.  `getDueReminders` returns a reminder iff it is stored, unresolved,
and either its `when` is "tonight" with local hour ≥ 20 or its `when` is
"tomorrow" with at least one full day elapsed since `createdAt`; a reminder
whose `when` is any other (specific-time) text is never returned. -/
theorem spec_c9_due_reminders (p : V2.Pending) (nowMs hour : Nat) (r : V2.Reminder) :
    (r ∈ V2.getDueReminders p nowMs hour ↔
      r ∈ p.reminders ∧ r.resolved = false ∧
        ((r.when = "tonight" ∧ 20 ≤ hour) ∨
         (r.when = "tomorrow" ∧ r.createdAt + V2.msPerDayN ≤ nowMs)))
    ∧ (r.when ≠ "tonight" → r.when ≠ "tomorrow" →
        r ∉ V2.getDueReminders p nowMs hour) := by
  have harith : (1 ≤ (nowMs - r.createdAt) / V2.msPerDayN) ↔
      r.createdAt + V2.msPerDayN ≤ nowMs := by
    rw [Nat.le_div_iff_mul_le (by norm_num [V2.msPerDayN])]
    rw [V2.msPerDayN]
    omega
  constructor
  · rw [V2.getDueReminders, List.mem_filter]
    refine and_congr_right fun _ => ?_
    by_cases hres : r.resolved
    · simp [hres]
    · by_cases hton : r.when = "tonight"
      · by_cases hh : 20 ≤ hour
        · simp [hres, hton, hh]
        · simp [hres, hton, hh]
      · by_cases htom : r.when = "tomorrow"
        · simp [hres, hton, htom, harith]
        · simp [hres, hton, htom]
  · intro h1 h2 hmem
    rw [V2.getDueReminders, List.mem_filter] at hmem
    revert hmem
    simp [h1, h2]

def c9Pending : V2.Pending :=
  { clarifications := []
    reminders := [{ userId := "bob", text := "order cups", when := "at 5pm",
                    createdAt := 0, resolved := false }] }

def c9Rem : V2.Reminder :=
  { userId := "bob", text := "order cups", when := "at 5pm", createdAt := 0,
    resolved := false }

theorem spec_c9_due_reminders_witness :
    c9Rem ∉ V2.getDueReminders c9Pending (2 * V2.msPerDayN) 21 :=
  (spec_c9_due_reminders c9Pending (2 * V2.msPerDayN) 21 c9Rem).2 (by decide) (by decide)

def c10Inv : V2.Inventory :=
  { categories := [("Drinks", ["Milk", "Oat milk"])], items := [], history := [] }

def c10u : V2.UpdateReq :=
  { item := "napkins", status := "low", qty := none, unit := none, note := none }

theorem spec_c10_no_match_no_mutation_witness :
    V2.updateItem c10Inv c10u.item c10u.status c10u.qty c10u.unit c10u.note 7 = none
    ∧ V2.processUpdates c10Inv [c10u] 7 = (c10Inv, [], ["napkins"]) := by
  obtain ⟨h1, h2⟩ := spec_c10_no_match_no_mutation c10Inv [c10u] 7 (by decide)
  exact ⟨h1 c10u (by simp), h2⟩

theorem IM.processItems_all_failed (items : List String) (status : Option String)
    (now : Nat) (inv : IM.Inventory)
    (hall : ∀ it ∈ items, findCanonical (allNamesOf inv.categories) it = none) :
    IM.processItems inv items status now = (inv, []) := by
  induction items with
  | nil => rfl
  | cons it rest ih =>
    have hf : IM.updateItemStatus inv it status now = none := by
      simp [IM.updateItemStatus, hall it (by simp)]
    have hrest := ih (fun v hv => hall v (List.mem_cons_of_mem it hv))
    simp [IM.processItems, hf, hrest]

def c6VSt : V2.ProcState :=
  { inventory := { categories := [("Drinks", ["Milk"])], items := [], history := [] }
    pending := { clarifications := [], reminders := [] } }

def c6VParsed : V2.Parsed :=
  { intent := "update"
    updates := [⟨"Napkins", "stocked", none, none, none⟩]
    clarifications := []
    reminder := none
    reply := "✅ Restocked everything!" }

/-- C6 counterexample.  In the v2 manager (`part_002`), an update intent
whose only proposed item ("Napkins") has no catalog match does NOT produce
an apology: `processInventoryMessage` returns the oracle's reply verbatim —
here a success-sounding confirmation — and leaves the documents unchanged.
The failed phrase is collected internally but never surfaced in the reply,
refuting the claim for this cited operation. -/
theorem spec_c6_all_failed_apology_counterexample :
    findCanonical (allNamesOf c6VSt.inventory.categories) "Napkins" = none
    ∧ V2.processInventoryMessage (fun _ => "") c6VSt (some c6VParsed) "u" 3
        = (c6VSt, some "✅ Restocked everything!") :=
  ⟨by decide, by decide⟩

/-- C6 (amended).  For an update intent none of whose proposed items
resolves to a catalog item: the simple manager (`inventory-manager.js`)
leaves the inventory unchanged and replies with the all-failed apology
("couldn't find … check spelling"), never a success confirmation; the v2
manager (`part_002`) reports the distinct all-failed outcome internally —
no item updated, every phrase in the failed list — but surfaces the
oracle's reply verbatim (or the no-reply sentinel when that reply is
empty) instead of generating an apology of its own. -/
theorem spec_c6_all_failed_apology :
    (∀ (render : IM.Inventory → String) (inv : IM.Inventory) (p : IM.Parsed) (now : Nat),
      (p.action = "restock" ∨ p.action = "low" ∨ p.action = "out") →
      (∀ it ∈ p.items, ∀ cand ∈ allNamesOf inv.categories,
        lowerStr cand ≠ lowerStr it) →
      IM.processInventoryMessage render inv (some p) now
        = (inv, some "❌ Couldn\x27t find those items in inventory. Check spelling?"))
    ∧ (∀ (render : V2.Inventory → String) (st : V2.ProcState) (p : V2.Parsed)
        (uid : String) (now : Nat),
      p.intent ≠ "ignore" → p.intent ≠ "status" → p.clarifications = [] →
      (∀ u ∈ p.updates, ∀ cand ∈ allNamesOf st.inventory.categories,
        lowerStr cand ≠ lowerStr u.item) →
      ((V2.processUpdates st.inventory p.updates now).2.1 = []
       ∧ (V2.processUpdates st.inventory p.updates now).2.2
         = p.updates.map (fun u => u.item)
       ∧ (V2.processInventoryMessage render st (some p) uid now).2
         = (if p.reply = "" then none else some p.reply))) := by
  constructor
  · intro render inv p now hact hall
    have hig : p.action ≠ "ignore" := by rcases hact with h | h | h <;> simp [h]
    have hunk : p.action ≠ "unknown" := by rcases hact with h | h | h <;> simp [h]
    have hst : p.action ≠ "status" := by rcases hact with h | h | h <;> simp [h]
    have hfail : ∀ it ∈ p.items, findCanonical (allNamesOf inv.categories) it = none := by
      intro it hit
      rw [findCanonical, List.find?_eq_none]
      intro a ha
      simpa using hall it hit a ha
    have hproc := IM.processItems_all_failed p.items (IM.statusMap p.action) now inv hfail
    simp [IM.processInventoryMessage, hig, hunk, hst, hproc]
  · intro render st p uid now hig hst hcl hall
    have hproc := V2.processUpdates_all_failed p.updates now st.inventory hall
    refine ⟨by rw [hproc], by rw [hproc], ?_⟩
    simp only [V2.processInventoryMessage, if_neg hig, if_neg hst]
    rw [hproc]
    simp [V2.buildResponse, hcl]

def c6Inv : IM.Inventory :=
  { categories := [("Drinks", ["Milk", "Oat milk"])], items := [], history := [] }

def c6Parsed : IM.Parsed :=
  { action := "out", items := ["Napkins", "Tape"], message := "" }

theorem spec_c6_all_failed_apology_witness :
    (IM.processInventoryMessage (fun _ => "") c6Inv (some c6Parsed) 4
      = (c6Inv, some "❌ Couldn\x27t find those items in inventory. Check spelling?"))
    ∧ ((V2.processUpdates c6VSt.inventory c6VParsed.updates 3).2.1 = []
       ∧ (V2.processUpdates c6VSt.inventory c6VParsed.updates 3).2.2 = ["Napkins"]
       ∧ (V2.processInventoryMessage (fun _ => "") c6VSt (some c6VParsed) "u" 3).2
         = (if c6VParsed.reply = "" then none else some c6VParsed.reply)) := by
  refine ⟨spec_c6_all_failed_apology.1 (fun _ => "") c6Inv c6Parsed 4 (by simp [c6Parsed])
    (by decide), ?_⟩
  obtain ⟨h1, h2, h3⟩ := spec_c6_all_failed_apology.2 (fun _ => "") c6VSt c6VParsed "u" 3
    (by decide) (by decide) (by decide) (by decide)
  exact ⟨h1, h2, h3⟩

/-- Inversion of the per-item prediction step. -/
theorem IM.predictOne_eq_some {item : String} {dates : List Nat} {nowMs : Nat}
    {pr : IM.Prediction} :
    IM.predictOne item dates nowMs = some pr ↔
    2 ≤ dates.length ∧
    IM.avgDaysOf dates - 1 ≤ IM.daysSinceOf dates nowMs ∧
    pr = { item := item, avgDays := IM.avgDaysOf dates,
           daysSinceRestock := IM.daysSinceOf dates nowMs,
           urgent := decide (IM.avgDaysOf dates ≤ IM.daysSinceOf dates nowMs) } := by
  rw [IM.predictOne]
  by_cases h1 : 2 ≤ dates.length
  · by_cases h2 : IM.avgDaysOf dates - 1 ≤ IM.daysSinceOf dates nowMs
    · simp [h1, h2, eq_comm]
    · simp [h1, h2]
  · simp [h1]

theorem IM.consecutiveGaps_length : ∀ l : List Nat,
    (IM.consecutiveGaps l).length = l.length - 1
  | [] => rfl
  | [_] => rfl
  | a :: b :: rest => by
    have := IM.consecutiveGaps_length (b :: rest)
    simp only [IM.consecutiveGaps, List.length_cons] at *
    omega

theorem IM.sortNat_length (l : List Nat) : (IM.sortNat l).length = l.length :=
  (List.perm_insertionSort (· ≤ ·) l).length_eq

/-- Predictions with a given item name come from that item's group, whose
dates are the item's stocked timestamps. -/
theorem IM.mem_getPredictions {inv : IM.Inventory} {nowMs : Nat} {pr : IM.Prediction}
    (h : pr ∈ IM.getPredictions inv nowMs) :
    ∃ dates, dates = IM.stockedTimes inv.history pr.item ∧
      IM.predictOne pr.item dates nowMs = some pr := by
  rw [IM.getPredictions, List.mem_filterMap] at h
  obtain ⟨g, hg, hsome⟩ := h
  obtain ⟨k, dates⟩ := g
  have hd := IM.mem_groupStocked hg
  have hitem : pr.item = k := by
    obtain ⟨-, -, hpr⟩ := IM.predictOne_eq_some.1 hsome
    rw [hpr]
  subst hitem
  exact ⟨dates, hd, hsome⟩

/-- C3.  For an item with at least two stocked history entries (its group
in `getPredictions`), the result contains the item iff
`daysSinceRestock ≥ avgDays - 1`, a returned row is urgent iff
`daysSinceRestock ≥ avgDays`, and at the boundary
`daysSinceRestock = avgDays - 1` the item is returned with
`urgent = false`. -/
theorem spec_c3_prediction_inclusion_boundary
    (inv : IM.Inventory) (nowMs : Nat) (item : String) (dates : List Nat)
    (hm : (item, dates) ∈ IM.groupStocked inv.history)
    (h2 : 2 ≤ dates.length) :
    ((∃ pr ∈ IM.getPredictions inv nowMs, pr.item = item) ↔
      IM.avgDaysOf dates - 1 ≤ IM.daysSinceOf dates nowMs)
    ∧ (∀ pr ∈ IM.getPredictions inv nowMs, pr.item = item →
        (pr.urgent = true ↔ IM.avgDaysOf dates ≤ IM.daysSinceOf dates nowMs))
    ∧ (IM.daysSinceOf dates nowMs = IM.avgDaysOf dates - 1 →
        ∃ pr ∈ IM.getPredictions inv nowMs, pr.item = item ∧ pr.urgent = false) := by
  have hdates : dates = IM.stockedTimes inv.history item := IM.mem_groupStocked hm
  have hmk : ∀ cond : IM.avgDaysOf dates - 1 ≤ IM.daysSinceOf dates nowMs,
      ({ item := item, avgDays := IM.avgDaysOf dates,
         daysSinceRestock := IM.daysSinceOf dates nowMs,
         urgent := decide (IM.avgDaysOf dates ≤ IM.daysSinceOf dates nowMs) }
          : IM.Prediction) ∈ IM.getPredictions inv nowMs := by
    intro cond
    rw [IM.getPredictions, List.mem_filterMap]
    exact ⟨(item, dates), hm, IM.predictOne_eq_some.2 ⟨h2, cond, rfl⟩⟩
  have hback : ∀ pr ∈ IM.getPredictions inv nowMs, pr.item = item →
      IM.avgDaysOf dates - 1 ≤ IM.daysSinceOf dates nowMs ∧
      pr = { item := item, avgDays := IM.avgDaysOf dates,
             daysSinceRestock := IM.daysSinceOf dates nowMs,
             urgent := decide (IM.avgDaysOf dates ≤ IM.daysSinceOf dates nowMs) } := by
    intro pr hpr hitem
    obtain ⟨dates2, hdates2, hsome⟩ := IM.mem_getPredictions hpr
    rw [hitem] at hdates2
    rw [← hdates] at hdates2
    subst hdates2
    obtain ⟨-, hcond, hpr2⟩ := IM.predictOne_eq_some.1 hsome
    rw [hitem] at hpr2
    exact ⟨hcond, hpr2⟩
  refine ⟨⟨?_, ?_⟩, ?_, ?_⟩
  · rintro ⟨pr, hpr, hitem⟩
    exact (hback pr hpr hitem).1
  · intro cond
    exact ⟨_, hmk cond, rfl⟩
  · intro pr hpr hitem
    rw [(hback pr hpr hitem).2]
    simp
  · intro heq
    refine ⟨_, hmk (by omega), rfl, ?_⟩
    simp only
    rw [decide_eq_false_iff_not]
    omega

def c3Inv : IM.Inventory :=
  { categories := [("Drinks", ["Skim milk"])], items := []
    history := [⟨"Skim milk", some "stocked", 0⟩,
                ⟨"Skim milk", some "stocked", 10 * V2.msPerDayN⟩] }

theorem spec_c3_prediction_inclusion_boundary_witness :
    ∃ pr ∈ IM.getPredictions c3Inv (19 * V2.msPerDayN),
      pr.item = "Skim milk" ∧ pr.urgent = false :=
  (spec_c3_prediction_inclusion_boundary c3Inv (19 * V2.msPerDayN) "Skim milk"
    [0, 10 * V2.msPerDayN] (by decide) (by decide)).2.2 (by decide)

/-- C8.  A returned prediction row always has at least two stocked history
entries for its item, and its `avgDays` is the JavaScript-rounded mean of
the consecutive deltas over the item's stocked timestamps sorted ascending:
the deltas are taken over an ascending-sorted permutation of the stocked
timestamps, and their count is one less than the number of timestamps. -/
theorem spec_c8_prediction_min_entries_avg
    (inv : IM.Inventory) (nowMs : Nat) (pr : IM.Prediction)
    (h : pr ∈ IM.getPredictions inv nowMs) :
    2 ≤ (inv.history.filter
          (fun e => e.action == some "stocked" && e.item == pr.item)).length
    ∧ pr.avgDays = IM.avgDaysOf (IM.stockedTimes inv.history pr.item)
    ∧ List.Sorted (· ≤ ·) (IM.sortNat (IM.stockedTimes inv.history pr.item))
    ∧ (IM.sortNat (IM.stockedTimes inv.history pr.item)).Perm
        (IM.stockedTimes inv.history pr.item)
    ∧ (IM.consecutiveGaps (IM.sortNat (IM.stockedTimes inv.history pr.item))).length
      = (IM.stockedTimes inv.history pr.item).length - 1 := by
  obtain ⟨dates, hdates, hsome⟩ := IM.mem_getPredictions h
  obtain ⟨h2, hcond, hpr⟩ := IM.predictOne_eq_some.1 hsome
  subst hdates
  refine ⟨?_, ?_, ?_, ?_, ?_⟩
  · rw [IM.stockedTimes, List.length_map] at h2
    exact h2
  · rw [hpr]
  · exact List.sorted_insertionSort (· ≤ ·) _
  · exact List.perm_insertionSort (· ≤ ·) _
  · rw [IM.consecutiveGaps_length, IM.sortNat_length]

def c8Pr : IM.Prediction :=
  { item := "Skim milk", avgDays := 10, daysSinceRestock := 9, urgent := false }

theorem spec_c8_prediction_min_entries_avg_witness :
    2 ≤ (c3Inv.history.filter
          (fun e => e.action == some "stocked" && e.item == c8Pr.item)).length
    ∧ c8Pr.avgDays = IM.avgDaysOf (IM.stockedTimes c3Inv.history c8Pr.item)
    ∧ List.Sorted (· ≤ ·) (IM.sortNat (IM.stockedTimes c3Inv.history c8Pr.item))
    ∧ (IM.sortNat (IM.stockedTimes c3Inv.history c8Pr.item)).Perm
        (IM.stockedTimes c3Inv.history c8Pr.item)
    ∧ (IM.consecutiveGaps (IM.sortNat (IM.stockedTimes c3Inv.history c8Pr.item))).length
      = (IM.stockedTimes c3Inv.history c8Pr.item).length - 1 :=
  spec_c8_prediction_min_entries_avg c3Inv (19 * V2.msPerDayN) c8Pr (by decide)
